import Mathlib

/-!
Verification of the Depth-Channel-Debander-Smoother pipeline
(`src/zsmooth.py` and `src/zsmooth_dynamic_range.py`).

An image is modelled as a flat buffer of samples over `ℚ` (exact model of the
float32 arithmetic; the NaN-producing paths get a separate `Option ℚ` model
below).  The two `cv2.bilateralFilter` calls are external collaborators: their
outputs (`large_smooth`, `fine_smooth`) appear as explicit arguments of the
embedded `reduce_banding`.
-/

/-- A single-channel image: flat buffer of samples. -/
abbrev Image := List ℚ

/-- `np.min` over a (nonempty) buffer; `0` on the empty buffer, which `numpy`
rejects at runtime — all statements below assume a nonempty image. -/
def minD : Image → ℚ
  | [] => 0
  | [x] => x
  | x :: y :: t => min x (minD (y :: t))

/-- `np.max` over a (nonempty) buffer. -/
def maxD : Image → ℚ
  | [] => 0
  | [x] => x
  | x :: y :: t => max x (maxD (y :: t))

theorem minD_cons_cons (x y : ℚ) (t : Image) :
    minD (x :: y :: t) = min x (minD (y :: t)) := rfl

theorem maxD_cons_cons (x y : ℚ) (t : Image) :
    maxD (x :: y :: t) = max x (maxD (y :: t)) := rfl

theorem minD_le_mem : ∀ {l : Image} {x : ℚ}, x ∈ l → minD l ≤ x := by
  intro l
  induction l with
  | nil => intro x hx; cases hx
  | cons a t ih =>
    intro x hx
    cases t with
    | nil =>
      rcases List.mem_singleton.mp hx with rfl
      exact le_refl _
    | cons b t' =>
      rw [minD_cons_cons]
      rcases List.mem_cons.mp hx with rfl | hx'
      · exact min_le_left _ _
      · exact le_trans (min_le_right _ _) (ih hx')

theorem mem_le_maxD : ∀ {l : Image} {x : ℚ}, x ∈ l → x ≤ maxD l := by
  intro l
  induction l with
  | nil => intro x hx; cases hx
  | cons a t ih =>
    intro x hx
    cases t with
    | nil =>
      rcases List.mem_singleton.mp hx with rfl
      exact le_refl _
    | cons b t' =>
      rw [maxD_cons_cons]
      rcases List.mem_cons.mp hx with rfl | hx'
      · exact le_max_left _ _
      · exact le_trans (ih hx') (le_max_right _ _)

theorem minD_mem : ∀ {l : Image}, l ≠ [] → minD l ∈ l := by
  intro l
  induction l with
  | nil => intro h; exact absurd rfl h
  | cons a t ih =>
    intro _
    cases t with
    | nil => simp [minD]
    | cons b t' =>
      rw [minD_cons_cons]
      rcases min_cases a (minD (b :: t')) with ⟨he, _⟩ | ⟨he, _⟩
      · rw [he]; exact List.mem_cons_self _ _
      · rw [he]; exact List.mem_cons_of_mem _ (ih (by simp))

theorem maxD_mem : ∀ {l : Image}, l ≠ [] → maxD l ∈ l := by
  intro l
  induction l with
  | nil => intro h; exact absurd rfl h
  | cons a t ih =>
    intro _
    cases t with
    | nil => simp [maxD]
    | cons b t' =>
      rw [maxD_cons_cons]
      rcases max_cases a (maxD (b :: t')) with ⟨he, _⟩ | ⟨he, _⟩
      · rw [he]; exact List.mem_cons_self _ _
      · rw [he]; exact List.mem_cons_of_mem _ (ih (by simp))

/-- `minD` commutes with a map that distributes over `min`. -/
theorem minD_map (f : ℚ → ℚ) (hf : ∀ a b : ℚ, f (min a b) = min (f a) (f b)) :
    ∀ (l : Image), l ≠ [] → minD (l.map f) = f (minD l) := by
  intro l
  induction l with
  | nil => intro h; exact absurd rfl h
  | cons a t ih =>
    intro _
    cases t with
    | nil => simp [minD]
    | cons b t' =>
      have h1 : minD ((a :: b :: t').map f) = min (f a) (minD ((b :: t').map f)) := rfl
      rw [h1, ih (by simp), minD_cons_cons, hf]

/-- `maxD` commutes with a map that distributes over `max`. -/
theorem maxD_map (f : ℚ → ℚ) (hf : ∀ a b : ℚ, f (max a b) = max (f a) (f b)) :
    ∀ (l : Image), l ≠ [] → maxD (l.map f) = f (maxD l) := by
  intro l
  induction l with
  | nil => intro h; exact absurd rfl h
  | cons a t ih =>
    intro _
    cases t with
    | nil => simp [maxD]
    | cons b t' =>
      have h1 : maxD ((a :: b :: t').map f) = max (f a) (maxD ((b :: t').map f)) := rfl
      rw [h1, ih (by simp), maxD_cons_cons, hf]

/-- `normalize_image` from both scripts:
`(image - np.min(image)) / (np.max(image) - np.min(image))`, broadcast per sample. -/
def normalize_image (image : Image) : Image :=
  image.map (fun x => (x - minD image) / (maxD image - minD image))

/-- An image with at least two distinct sample values. -/
def Nonconstant (l : Image) : Prop := ∃ a ∈ l, ∃ b ∈ l, a ≠ b

theorem Nonconstant.ne_nil {l : Image} (h : Nonconstant l) : l ≠ [] := by
  rcases h with ⟨a, ha, _⟩
  intro he
  rw [he] at ha
  cases ha

theorem nonconst_minD_lt_maxD {l : Image} (h : Nonconstant l) : minD l < maxD l := by
  rcases h with ⟨a, ha, b, hb, hab⟩
  rcases lt_or_gt_of_ne hab with hlt | hgt
  · exact lt_of_le_of_lt (minD_le_mem ha) (lt_of_lt_of_le hlt (mem_le_maxD hb))
  · exact lt_of_le_of_lt (minD_le_mem hb) (lt_of_lt_of_le hgt (mem_le_maxD ha))

/-- On a nonconstant image, the normalized buffer attains minimum `0` and
maximum `1` exactly. -/
theorem normalize_bounds {l : Image} (h : Nonconstant l) :
    minD (normalize_image l) = 0 ∧ maxD (normalize_image l) = 1 := by
  have hne : l ≠ [] := h.ne_nil
  have hd : 0 < maxD l - minD l := sub_pos.mpr (nonconst_minD_lt_maxD h)
  have hfmin : ∀ a b : ℚ,
      (min a b - minD l) / (maxD l - minD l)
        = min ((a - minD l) / (maxD l - minD l)) ((b - minD l) / (maxD l - minD l)) := by
    intro a b
    rw [min_div_div_right (le_of_lt hd), min_sub_sub_right]
  have hfmax : ∀ a b : ℚ,
      (max a b - minD l) / (maxD l - minD l)
        = max ((a - minD l) / (maxD l - minD l)) ((b - minD l) / (maxD l - minD l)) := by
    intro a b
    rw [max_div_div_right (le_of_lt hd), max_sub_sub_right]
  constructor
  · rw [normalize_image,
      minD_map (fun x => (x - minD l) / (maxD l - minD l)) (fun a b => hfmin a b) l hne]
    simp
  · rw [normalize_image,
      maxD_map (fun x => (x - minD l) / (maxD l - minD l)) (fun a b => hfmax a b) l hne]
    field_simp

/-- `np.where(cond, a, b)`, elementwise selection. -/
def npWhere {α : Type} : List Bool → List α → List α → List α
  | c :: cs, x :: xs, y :: ys => (if c then x else y) :: npWhere cs xs ys
  | _, _, _ => []

/-- The blending part of `reduce_banding` (identical in both scripts):
`detail = image - fine_smooth`, `boosted = fine_smooth + detail * boost`,
`result = np.where(np.abs(detail) > detail_threshold, boosted, large_smooth)`.
The two `cv2.bilateralFilter` outputs are passed in as `large_smooth` and
`fine_smooth` (the bilateral filter is an external collaborator). -/
def reduce_banding_blend (image large_smooth fine_smooth : Image)
    (boost detail_threshold : ℚ) : Image :=
  let detail := List.zipWith (fun a b => a - b) image fine_smooth
  let boosted := List.zipWith (fun a b => a + b) fine_smooth
    (detail.map (fun d => d * boost))
  npWhere (detail.map (fun d => decide (detail_threshold < |d|))) boosted large_smooth

/-- `reduce_banding` from both scripts: blend, then `normalize_image` on the
blended result. -/
def reduce_banding (image large_smooth fine_smooth : Image)
    (boost detail_threshold : ℚ) : Image :=
  normalize_image (reduce_banding_blend image large_smooth fine_smooth boost detail_threshold)

theorem reduce_banding_blend_cons (x l f : ℚ) (xs ls fs : Image) (boost thr : ℚ) :
    reduce_banding_blend (x :: xs) (l :: ls) (f :: fs) boost thr
      = (if thr < |x - f| then f + (x - f) * boost else l)
          :: reduce_banding_blend xs ls fs boost thr := by
  simp only [reduce_banding_blend, List.zipWith_cons_cons, List.map_cons, npWhere]
  by_cases h : thr < |x - f| <;> simp [h]

theorem reduce_banding_blend_length :
    ∀ (image ls fs : Image) (boost thr : ℚ), ls.length = image.length →
      fs.length = image.length →
      (reduce_banding_blend image ls fs boost thr).length = image.length := by
  intro image
  induction image with
  | nil =>
    intro ls fs boost thr hls hfs
    rw [List.length_eq_zero.mp hls, List.length_eq_zero.mp hfs]
    rfl
  | cons x xs ih =>
    intro ls fs boost thr hls hfs
    cases ls with
    | nil => cases hls
    | cons l ls' =>
      cases fs with
      | nil => cases hfs
      | cons f fs' =>
        rw [reduce_banding_blend_cons, List.length_cons, List.length_cons,
          ih ls' fs' boost thr (Nat.succ_injective hls) (Nat.succ_injective hfs)]

/-- C1: `reduce_banding`'s per-pixel selection rule.  With
`detail = image - fine_smooth` and `boosted = fine_smooth + detail * boost`,
the blended result is `boosted[i]` where `|detail[i]| > threshold` (strictly)
and `large_smooth[i]` otherwise, at every pixel `i`. -/
theorem C1_detail_booster_selection :
    ∀ (image ls fs : Image) (boost thr : ℚ) (i : ℕ), ls.length = image.length →
      fs.length = image.length → i < image.length →
      (reduce_banding_blend image ls fs boost thr).getD i 0
        = if thr < |image.getD i 0 - fs.getD i 0| then
            fs.getD i 0 + (image.getD i 0 - fs.getD i 0) * boost
          else ls.getD i 0 := by
  intro image
  induction image with
  | nil => intro ls fs boost thr i _ _ hi; cases hi
  | cons x xs ih =>
    intro ls fs boost thr i hls hfs hi
    cases ls with
    | nil => cases hls
    | cons l ls' =>
      cases fs with
      | nil => cases hfs
      | cons f fs' =>
        rw [reduce_banding_blend_cons]
        cases i with
        | zero => simp
        | succ j =>
          simp only [List.getD_cons_succ]
          exact ih ls' fs' boost thr j (Nat.succ_injective hls) (Nat.succ_injective hfs)
            (Nat.lt_of_succ_lt_succ hi)

theorem C1_witness :
    (reduce_banding_blend [1/10, 2/10] [5, 6] [0, 0] 2 (3/20)).getD 0 0 = 5 := by
  have h := C1_detail_booster_selection [1/10, 2/10] [5, 6] [0, 0] 2 (3/20) 0
    (by norm_num) (by norm_num) (by norm_num)
  rw [h]
  rw [abs_of_nonneg (by norm_num [List.getD] : (0:ℚ) ≤ [1/10, 2/10].getD 0 0 - [0, 0].getD 0 0)]
  norm_num [List.getD]

/-- C3: `reduce_banding` applies `normalize_image` to the blended result as its
last step, so whenever the blended result is nonconstant the returned image has
minimum `0` and maximum `1`, for every image and boost value. -/
theorem C3_banding_reducer_renormalizes (image ls fs : Image) (boost thr : ℚ)
    (h : Nonconstant (reduce_banding_blend image ls fs boost thr)) :
    reduce_banding image ls fs boost thr
        = normalize_image (reduce_banding_blend image ls fs boost thr)
    ∧ minD (reduce_banding image ls fs boost thr) = 0
    ∧ maxD (reduce_banding image ls fs boost thr) = 1 :=
  ⟨rfl, (normalize_bounds h).1, (normalize_bounds h).2⟩

theorem C3_witness :
    minD (reduce_banding [0, 1] [0, 1/2] [0, 0] 2 (1/100)) = 0
    ∧ maxD (reduce_banding [0, 1] [0, 1/2] [0, 0] 2 (1/100)) = 1 := by
  have hblend : reduce_banding_blend [0, 1] [0, 1/2] [0, 0] 2 (1/100) = [0, 2] := by
    norm_num [reduce_banding_blend, npWhere]
  have h : Nonconstant (reduce_banding_blend [0, 1] [0, 1/2] [0, 0] 2 (1/100)) := by
    rw [hblend]
    exact ⟨0, by simp, 2, by simp, by norm_num⟩
  exact (C3_banding_reducer_renormalizes [0, 1] [0, 1/2] [0, 0] 2 (1/100) h).2

/-- C5: `normalize_image` rescales every pixel by
`(img[i] - min(img)) / (max(img) - min(img))`, and on a nonconstant image the
output attains minimum `0` and maximum `1`. -/
theorem C5_normalize_contract (img : Image) (h : Nonconstant img) :
    (normalize_image img).length = img.length
    ∧ (∀ i : ℕ, i < img.length →
        (normalize_image img).getD i 0
          = (img.getD i 0 - minD img) / (maxD img - minD img))
    ∧ minD (normalize_image img) = 0 ∧ maxD (normalize_image img) = 1 := by
  refine ⟨by simp [normalize_image], ?_, (normalize_bounds h).1, (normalize_bounds h).2⟩
  intro i hi
  simp [normalize_image, List.getD_eq_getElem?_getD, List.getElem?_map,
    List.getElem?_eq_getElem hi]

theorem C5_witness :
    minD (normalize_image [0, 2]) = 0 ∧ maxD (normalize_image [0, 2]) = 1 :=
  (C5_normalize_contract [0, 2] ⟨0, by simp, 2, by simp, by norm_num⟩).2.2

/-- C10: `normalize_image` is idempotent on nonconstant images: the first
application already attains minimum `0` and maximum `1`, so the second one is
the identity. -/
theorem C10_normalize_idempotent (img : Image) (h : Nonconstant img) :
    normalize_image (normalize_image img) = normalize_image img := by
  obtain ⟨hmin, hmax⟩ := normalize_bounds h
  calc normalize_image (normalize_image img)
      = (normalize_image img).map (fun x =>
          (x - minD (normalize_image img))
            / (maxD (normalize_image img) - minD (normalize_image img))) := rfl
    _ = (normalize_image img).map (fun x => (x - 0) / (1 - 0)) := by rw [hmin, hmax]
    _ = normalize_image img := by simp

theorem C10_witness :
    normalize_image (normalize_image [0, 2]) = normalize_image [0, 2] :=
  C10_normalize_idempotent [0, 2] ⟨0, by simp, 2, by simp, by norm_num⟩

/-- Python exceptions raised by the embedded code: `TypeError` models
`float(None)`, `valueError` models `raise ValueError(msg)`. -/
inductive PyError where
  | typeError
  | valueError (msg : String)
deriving DecidableEq

/-- One sample of `extend_dynamic_range`:
`np.clip(x, black, white)` followed by `(x - black) / (white - black)`. -/
def extend_pixel (black white x : ℚ) : ℚ :=
  (min (max x black) white - black) / (white - black)

/-- `extend_dynamic_range` from `zsmooth_dynamic_range.py`.  The source first
runs `float(black_point)` and `float(white_point)`; on `None` (absent CLI
option) that raises `TypeError`, modelled by the `Option` match.  Then it
raises `ValueError` when `white_point <= black_point`, else clips to
`[black, white]` and remaps linearly. -/
def extend_dynamic_range (image : Image) (black_point white_point : Option ℚ) :
    Except PyError Image :=
  match black_point, white_point with
  | some black, some white =>
    if white ≤ black then
      .error (.valueError "White point must be greater than black point")
    else
      .ok (image.map (extend_pixel black white))
  | _, _ => .error .typeError

/-- The `Loaded → RangeAdjusted` step of `process_depth_image` in
`zsmooth_dynamic_range.py`: the source comment reads "Always extend dynamic
range", and `extend_dynamic_range` is applied unconditionally, whatever the
bounds are. -/
def range_adjust_dyn (img : Image) (black_point white_point : Option ℚ) :
    Except PyError Image :=
  extend_dynamic_range img black_point white_point

/-- The `Loaded → RangeAdjusted` step of `process_depth_image` in
`zsmooth.py`: global min/max normalization. -/
def range_adjust_basic (img : Image) : Image :=
  normalize_image img

/-- C4: `extend_dynamic_range` fails with the invalid-range `ValueError`
exactly when `white ≤ black`; when `white > black` it clips every sample to
`[black, white]` and remaps linearly, and every output value lies in `[0, 1]`. -/
theorem C4_extend_contract (img : Image) (b w : ℚ) :
    (extend_dynamic_range img (some b) (some w)
        = .error (.valueError "White point must be greater than black point") ↔ w ≤ b)
    ∧ (b < w →
        extend_dynamic_range img (some b) (some w) = .ok (img.map (extend_pixel b w))
        ∧ ∀ y ∈ img.map (extend_pixel b w), 0 ≤ y ∧ y ≤ 1) := by
  constructor
  · constructor
    · intro he
      by_contra hbw
      rw [extend_dynamic_range, if_neg hbw] at he
      cases he
    · intro hle
      rw [extend_dynamic_range, if_pos hle]
  · intro hlt
    have hne : ¬ w ≤ b := not_le.mpr hlt
    have hd : 0 < w - b := sub_pos.mpr hlt
    refine ⟨by rw [extend_dynamic_range, if_neg hne], ?_⟩
    intro y hy
    rcases List.mem_map.mp hy with ⟨x, _, rfl⟩
    rw [extend_pixel]
    have hlo : b ≤ min (max x b) w :=
      le_min (le_max_right _ _) (le_of_lt hlt)
    have hhi : min (max x b) w ≤ w := min_le_right _ _
    constructor
    · exact div_nonneg (sub_nonneg.mpr hlo) (le_of_lt hd)
    · rw [div_le_one hd]
      exact sub_le_sub_right hhi b

theorem C4_witness :
    extend_dynamic_range [1/2, 2, -3] (some 0) (some 1)
        = .ok ([(1:ℚ)/2, 2, -3].map (extend_pixel 0 1))
    ∧ (extend_dynamic_range [1/2, 2, -3] (some 1) (some 1)
        = .error (.valueError "White point must be greater than black point")
        ↔ (1:ℚ) ≤ 1) :=
  ⟨((C4_extend_contract [1/2, 2, -3] 0 1).2 (by norm_num)).1,
    C4_extend_contract [1/2, 2, -3] 1 1 |>.1⟩

/-- C7: when every sample already lies in `[black, white]` the clip is the
identity, so `extend_dynamic_range` is exactly the direct linear stretch
`(img - black) / (white - black)`; a sample below `black` maps exactly to `0`
and a sample above `white` maps exactly to `1`. -/
theorem C7_extend_stretch (img : Image) (b w : ℚ)
    (_h0 : 0 ≤ b) (hbw : b < w) (_h1 : w ≤ 1) :
    ((∀ x ∈ img, b ≤ x ∧ x ≤ w) →
      extend_dynamic_range img (some b) (some w)
        = .ok (img.map (fun x => (x - b) / (w - b))))
    ∧ (∀ x : ℚ, x < b → extend_pixel b w x = 0)
    ∧ (∀ x : ℚ, w < x → extend_pixel b w x = 1) := by
  have hne : ¬ w ≤ b := not_le.mpr hbw
  have hd : w - b ≠ 0 := sub_ne_zero.mpr (ne_of_gt hbw)
  refine ⟨?_, ?_, ?_⟩
  · intro hin
    rw [extend_dynamic_range, if_neg hne]
    congr 1
    apply List.map_congr_left
    intro x hx
    rcases hin x hx with ⟨hxb, hxw⟩
    rw [extend_pixel, max_eq_left hxb, min_eq_left hxw]
  · intro x hx
    rw [extend_pixel, max_eq_right (le_of_lt hx),
      min_eq_left (le_of_lt hbw), sub_self, zero_div]
  · intro x hx
    rw [extend_pixel, min_eq_right (le_max_of_le_left (le_of_lt hx)), div_self hd]

theorem C7_witness :
    (extend_dynamic_range [3/10, 1/2] (some (1/5)) (some (4/5))
        = .ok ([(3:ℚ)/10, 1/2].map (fun x => (x - 1/5) / (4/5 - 1/5))))
    ∧ extend_pixel (1/5) (4/5) (1/10) = 0
    ∧ extend_pixel (1/5) (4/5) (9/10) = 1 := by
  have h := C7_extend_stretch [3/10, 1/2] (1/5) (4/5) (by norm_num) (by norm_num) (by norm_num)
  exact ⟨h.1 (by norm_num), h.2.1 (1/10) (by norm_num), h.2.2 (9/10) (by norm_num)⟩

/-- C2: in `zsmooth_dynamic_range.py` the `Loaded → RangeAdjusted` step does
NOT fall back to global min/max normalization when both bounds are absent: the
source applies `extend_dynamic_range` unconditionally, and `float(None)`
raises `TypeError`.  With both bounds supplied it is the clip-and-remap
extension, as the claim says.  (`zsmooth.py`'s step, `range_adjust_basic`,
is plain normalization and has no bounds at all.) -/
theorem C2_absent_bounds_crash :
    range_adjust_dyn [0, 1/2, 2] none none = .error .typeError
    ∧ range_adjust_dyn [0, 1/2, 2] none none ≠ .ok (range_adjust_basic [0, 1/2, 2])
    ∧ range_adjust_dyn [0, 1/2, 2] (some 0) (some 1)
        = .ok ([0, (1:ℚ)/2, 2].map (extend_pixel 0 1)) := by
  refine ⟨rfl, by simp [range_adjust_dyn, extend_dynamic_range], ?_⟩
  rw [range_adjust_dyn, extend_dynamic_range, if_neg (by norm_num)]

/-- The CLI validation in `main` of `zsmooth_dynamic_range.py`: with both
bounds given, exit 1 when
`b < 0 or b >= 1 or w <= 0 or w > 1 or b >= w`; with exactly one bound given,
exit 1; with neither, proceed. -/
def validate_points (black_point white_point : Option ℚ) : Except Nat Unit :=
  match black_point, white_point with
  | some b, some w =>
    if b < 0 ∨ 1 ≤ b ∨ w ≤ 0 ∨ 1 < w ∨ w ≤ b then .error 1 else .ok ()
  | none, none => .ok ()
  | _, _ => .error 1

/-- `main` of `zsmooth_dynamic_range.py` at the granularity the claim needs:
validation runs first and `sys.exit(1)` short-circuits, so the pipeline
(`process_depth_image`, abstracted as its outcome `pipeline`) never runs and
no output file is produced. -/
def main_dyn (black_point white_point : Option ℚ)
    (pipeline : Except Nat Image) : Except Nat Image :=
  match validate_points black_point white_point with
  | .error c => .error c
  | .ok _ => pipeline

/-- C8: the run exits with status 1 before any pipeline stage exactly when one
bound is given without the other, or the pair violates
`0 ≤ black < white ≤ 1`; in that case the result is `exit 1` whatever the
pipeline would have produced, so no output file is created. -/
theorem C8_validation (bp wp : Option ℚ) :
    (validate_points bp wp = .error 1 ↔
      (bp = none ∧ wp ≠ none) ∨ (bp ≠ none ∧ wp = none)
        ∨ ∃ b w, bp = some b ∧ wp = some w ∧ ¬(0 ≤ b ∧ b < w ∧ w ≤ 1))
    ∧ (validate_points bp wp = .error 1 →
        ∀ pipeline, main_dyn bp wp pipeline = .error 1) := by
  constructor
  · cases bp with
    | none =>
      cases wp with
      | none => simp [validate_points]
      | some w => simp [validate_points]
    | some b =>
      cases wp with
      | none => simp [validate_points]
      | some w =>
        by_cases hc : b < 0 ∨ 1 ≤ b ∨ w ≤ 0 ∨ 1 < w ∨ w ≤ b
        · rw [validate_points, if_pos hc]
          simp only [true_iff]
          refine Or.inr (Or.inr ⟨b, w, rfl, rfl, ?_⟩)
          intro hcon
          rcases hcon with ⟨h0, hbw, h1⟩
          rcases hc with h | h | h | h | h <;> linarith
        · rw [validate_points, if_neg hc]
          push_neg at hc
          constructor
          · intro h
            exact absurd h (by simp)
          · intro h
            exfalso
            rcases h with ⟨h1, _⟩ | ⟨_, h2⟩ | ⟨b', w', hb', hw', hviol⟩
            · cases h1
            · cases h2
            · injection hb' with hb
              injection hw' with hw
              subst hb
              subst hw
              exact hviol ⟨hc.1, hc.2.2.2.2, hc.2.2.2.1⟩
  · intro hv pipeline
    rw [main_dyn, hv]

theorem C8_witness :
    validate_points (some (1/2)) none = .error 1
    ∧ main_dyn (some (1/2)) none (.ok [0]) = .error 1 := by
  have h := C8_validation (some (1/2)) none
  have hv : validate_points (some ((1:ℚ)/2)) none = .error 1 :=
    h.1.mpr (Or.inr (Or.inl ⟨by simp, rfl⟩))
  exact ⟨hv, h.2 hv (.ok [0])⟩

/-- Source bit depth of a decoded raster, as `read_image` in
`zsmooth_dynamic_range.py` branches on `img.dtype`: `uint8`, `uint16`, or any
other dtype (float32/float64/EXR), which falls through to plain `astype`. -/
inductive Dtype where
  | u8
  | u16
  | f32
deriving DecidableEq

/-- Decoded pixel data before dtype scaling: single-channel
(`len(img.shape) == 2`) or three-channel BGR (`len(img.shape) == 3`). -/
inductive RawData where
  | gray (px : List ℚ)
  | bgr (px : List (ℚ × ℚ × ℚ))

/-- What the external codec (`cv2.imread` / `PIL`) hands to `read_image`. -/
structure Raw where
  dtype : Dtype
  data : RawData

/-- `cv2.cvtColor(img, cv2.COLOR_BGR2GRAY)`: OpenCV's documented luminance
weights `0.299 R + 0.587 G + 0.114 B` on a `(b, g, r)` triple (external
collaborator, embedded by its documented contract). -/
def cvtColor_BGR2GRAY (px : List (ℚ × ℚ × ℚ)) : List ℚ :=
  px.map (fun p => 299/1000 * p.2.2 + 587/1000 * p.2.1 + 114/1000 * p.1)

/-- `read_image` from `zsmooth_dynamic_range.py`, with the codec output
abstracted as `decoded` (`none` = both `cv2.imread` and `PIL` failed):
unreadable input raises `ValueError("Could not read image: <path>")`;
three-channel data is converted to gray; then `uint8` is divided by `255.0`,
`uint16` by `65535.0`, anything else is cast without scaling. -/
def read_image_dyn (decoded : Option Raw) (file_path : String) :
    Except PyError Image :=
  match decoded with
  | none => .error (.valueError ("Could not read image: " ++ file_path))
  | some r =>
    let img := match r.data with
      | .gray px => px
      | .bgr px => cvtColor_BGR2GRAY px
    match r.dtype with
    | .u8 => .ok (img.map (fun x => x / 255))
    | .u16 => .ok (img.map (fun x => x / 65535))
    | .f32 => .ok img

/-- `read_image` from `zsmooth.py`: `cv2.imread(path, IMREAD_ANYDEPTH)`
followed by a bare `astype(np.float32)` — no bit-depth scaling at all;
unreadable input raises `ValueError("Could not read image: <path>")`. -/
def read_image_basic (decoded : Option Image) (file_path : String) :
    Except PyError Image :=
  match decoded with
  | none => .error (.valueError ("Could not read image: " ++ file_path))
  | some px => .ok px

/-- C6 counterexample: `zsmooth.py`'s decode step does not divide 8-bit
sources by 255 — a sample decoded as `255` is returned as `255`, not `1`. -/
theorem C6_counterexample :
    read_image_basic (some [255]) "input.png" = .ok [(255:ℚ)]
    ∧ read_image_basic (some [255]) "input.png" ≠ .ok [(1:ℚ)] :=
  ⟨rfl, by simp [read_image_basic]⟩

/-- C6 (amended): `zsmooth_dynamic_range.py`'s decode step scales 8-bit
sources by `1/255`, 16-bit by `1/65535`, passes float/EXR through as-is,
converts multi-channel data to single-channel first, and fails naming the path
on unreadable input; `zsmooth.py`'s decode step returns the decoded values
unscaled. -/
theorem C6_decode_amended (px : List ℚ) (px3 : List (ℚ × ℚ × ℚ)) (path : String) :
    read_image_dyn none path = .error (.valueError ("Could not read image: " ++ path))
    ∧ read_image_dyn (some ⟨.u8, .gray px⟩) path = .ok (px.map (fun x => x / 255))
    ∧ read_image_dyn (some ⟨.u16, .gray px⟩) path = .ok (px.map (fun x => x / 65535))
    ∧ read_image_dyn (some ⟨.f32, .gray px⟩) path = .ok px
    ∧ read_image_dyn (some ⟨.u8, .bgr px3⟩) path
        = .ok ((cvtColor_BGR2GRAY px3).map (fun x => x / 255))
    ∧ read_image_basic (some px) path = .ok px :=
  ⟨rfl, rfl, rfl, rfl, rfl, rfl⟩

/-!
Float model with non-finite values for the constant-image path: a sample is
`some q` (finite) or `none` (NaN/non-finite).  Arithmetic propagates `none`;
division by zero produces `none` (for `normalize_image` on a constant image
the numerator is also `0`, so this is numpy's silent `0.0/0.0 → NaN`,
a warning, not an exception); an ordered comparison against NaN is `False`,
as in IEEE 754.
-/

def fadd : Option ℚ → Option ℚ → Option ℚ
  | some a, some b => some (a + b)
  | _, _ => none

def fsub : Option ℚ → Option ℚ → Option ℚ
  | some a, some b => some (a - b)
  | _, _ => none

def fmul : Option ℚ → Option ℚ → Option ℚ
  | some a, some b => some (a * b)
  | _, _ => none

def fdiv : Option ℚ → Option ℚ → Option ℚ
  | some a, some b => if b = 0 then none else some (a / b)
  | _, _ => none

def fabs : Option ℚ → Option ℚ
  | some a => some |a|
  | none => none

/-- `x > t` on a possibly-NaN sample: NaN compares `False`. -/
def fgt (a : Option ℚ) (t : ℚ) : Bool :=
  match a with
  | some x => decide (t < x)
  | none => false

/-- `np.min`: NaN-poisoning minimum over the buffer. -/
def fminD (l : List (Option ℚ)) : Option ℚ :=
  if none ∈ l then none else some (minD (l.filterMap id))

/-- `np.max`: NaN-poisoning maximum over the buffer. -/
def fmaxD (l : List (Option ℚ)) : Option ℚ :=
  if none ∈ l then none else some (maxD (l.filterMap id))

/-- `normalize_image` in the float model, division unguarded exactly as in the
source. -/
def normalize_imageF (image : List (Option ℚ)) : List (Option ℚ) :=
  image.map (fun x => fdiv (fsub x (fminD image)) (fsub (fmaxD image) (fminD image)))

/-- The blending part of `reduce_banding` in the float model. -/
def reduce_banding_blendF (image ls fs : List (Option ℚ)) (boost thr : ℚ) :
    List (Option ℚ) :=
  let detail := List.zipWith fsub image fs
  let boosted := List.zipWith fadd fs (detail.map (fun d => fmul d (some boost)))
  npWhere (detail.map (fun d => fgt (fabs d) thr)) boosted ls

/-- `reduce_banding` in the float model. -/
def reduce_bandingF (image ls fs : List (Option ℚ)) (boost thr : ℚ) :
    List (Option ℚ) :=
  normalize_imageF (reduce_banding_blendF image ls fs boost thr)

theorem reduce_banding_blendF_cons (x l f : Option ℚ) (xs ls fs : List (Option ℚ))
    (boost thr : ℚ) :
    reduce_banding_blendF (x :: xs) (l :: ls) (f :: fs) boost thr
      = (if fgt (fabs (fsub x f)) thr then fadd f (fmul (fsub x f) (some boost)) else l)
          :: reduce_banding_blendF xs ls fs boost thr := by
  simp only [reduce_banding_blendF, List.zipWith_cons_cons, List.map_cons, npWhere]

/-- Blending all-NaN buffers yields an all-NaN buffer. -/
theorem reduce_banding_blendF_allnone :
    ∀ (a ls fs : List (Option ℚ)) (boost thr : ℚ), ls.length = a.length →
      fs.length = a.length → (∀ y ∈ a, y = none) → (∀ y ∈ ls, y = none) →
      (∀ y ∈ fs, y = none) →
      reduce_banding_blendF a ls fs boost thr = List.replicate a.length none := by
  intro a
  induction a with
  | nil =>
    intro ls fs boost thr hls hfs _ _ _
    rw [List.length_eq_zero.mp hls, List.length_eq_zero.mp hfs]
    rfl
  | cons x xs ih =>
    intro ls fs boost thr hls hfs ha hl hf
    cases ls with
    | nil => cases hls
    | cons l ls' =>
      cases fs with
      | nil => cases hfs
      | cons f fs' =>
        have hx : x = none := ha x (List.mem_cons_self _ _)
        have hl0 : l = none := hl l (List.mem_cons_self _ _)
        have hf0 : f = none := hf f (List.mem_cons_self _ _)
        rw [reduce_banding_blendF_cons, hx, hl0, hf0]
        have hrec := ih ls' fs' boost thr (Nat.succ_injective hls)
          (Nat.succ_injective hfs)
          (fun y hy => ha y (List.mem_cons_of_mem _ hy))
          (fun y hy => hl y (List.mem_cons_of_mem _ hy))
          (fun y hy => hf y (List.mem_cons_of_mem _ hy))
        rw [hrec]
        rfl

/-- Renormalizing an all-NaN buffer leaves it all-NaN. -/
theorem normalize_imageF_replicate_none (n : ℕ) :
    normalize_imageF (List.replicate n none) = List.replicate n none := by
  cases n with
  | zero => rfl
  | succ m =>
    have hmem : (none : Option ℚ) ∈ List.replicate (m + 1) (none : Option ℚ) :=
      List.mem_replicate.mpr ⟨Nat.succ_ne_zero m, rfl⟩
    rw [normalize_imageF, fminD, if_pos hmem]
    rw [List.map_replicate]
    have : ∀ x : Option ℚ,
        fdiv (fsub x none) (fsub (fmaxD (List.replicate (m + 1) none)) none) = none := by
      intro x
      cases x <;> rfl
    rw [this]

theorem fminD_map_some (l : Image) : fminD (l.map some) = some (minD l) := by
  rw [fminD, if_neg (by simp)]
  congr 1
  rw [List.filterMap_map]
  simp

theorem fmaxD_map_some (l : Image) : fmaxD (l.map some) = some (maxD l) := by
  rw [fmaxD, if_neg (by simp)]
  congr 1
  rw [List.filterMap_map]
  simp

theorem minD_const {l : Image} {c : ℚ} (hne : l ≠ []) (hc : ∀ x ∈ l, x = c) :
    minD l = c :=
  hc _ (minD_mem hne)

theorem maxD_const {l : Image} {c : ℚ} (hne : l ≠ []) (hc : ∀ x ∈ l, x = c) :
    maxD l = c :=
  hc _ (maxD_mem hne)

/-- C9: on a perfectly constant image the normalization denominator
`max - min` is zero and the division runs unguarded: no error is raised, every
output sample is NaN, and (given all-NaN bilateral-filter outputs, since the
filter only sees NaN) the banding-reduction stage keeps the buffer all-NaN —
the NaN image propagates silently. -/
theorem C9_constant_image_nan (img : Image) (c : ℚ) (hne : img ≠ [])
    (hc : ∀ x ∈ img, x = c) (boost thr : ℚ) (ls fs : List (Option ℚ))
    (hls : ls.length = img.length) (hfs : fs.length = img.length)
    (hlsN : ∀ y ∈ ls, y = none) (hfsN : ∀ y ∈ fs, y = none) :
    maxD img - minD img = 0
    ∧ normalize_imageF (img.map some) = List.replicate img.length none
    ∧ reduce_bandingF (normalize_imageF (img.map some)) ls fs boost thr
        = List.replicate img.length none := by
  have hmin : minD img = c := minD_const hne hc
  have hmax : maxD img = c := maxD_const hne hc
  have hden : maxD img - minD img = 0 := by rw [hmin, hmax, sub_self]
  have hnorm : normalize_imageF (img.map some) = List.replicate img.length none := by
    rw [normalize_imageF, fminD_map_some, fmaxD_map_some, List.map_map]
    have hfn : ∀ x : ℚ,
        fdiv (fsub (some x) (some (minD img))) (fsub (some (maxD img)) (some (minD img)))
          = none := by
      intro x
      show fdiv (some (x - minD img)) (some (maxD img - minD img)) = none
      rw [fdiv, hden]
      simp
    calc img.map ((fun x => fdiv (fsub x (some (minD img)))
            (fsub (some (maxD img)) (some (minD img)))) ∘ some)
        = img.map (fun _ => (none : Option ℚ)) := List.map_congr_left (fun x _ => hfn x)
      _ = List.replicate img.length none := by
          rw [List.map_const']
  refine ⟨hden, hnorm, ?_⟩
  rw [reduce_bandingF, hnorm]
  rw [reduce_banding_blendF_allnone (List.replicate img.length none) ls fs boost thr
    (by rw [List.length_replicate]; exact hls)
    (by rw [List.length_replicate]; exact hfs)
    (fun y hy => (List.mem_replicate.mp hy).2) hlsN hfsN]
  rw [List.length_replicate, normalize_imageF_replicate_none]

theorem C9_witness :
    maxD [(1:ℚ)/2, 1/2] - minD [(1:ℚ)/2, 1/2] = 0
    ∧ normalize_imageF ([(1:ℚ)/2, 1/2].map some) = List.replicate 2 none := by
  have hc : ∀ x ∈ [(1:ℚ)/2, 1/2], x = 1/2 := by
    intro x hx
    rcases List.mem_cons.mp hx with rfl | hx'
    · rfl
    · rcases List.mem_singleton.mp hx' with rfl
      rfl
  have h := C9_constant_image_nan [(1:ℚ)/2, 1/2] (1/2) (by simp) hc (3/2) (1/50)
    [none, none] [none, none] rfl rfl (by simp) (by simp)
  exact ⟨h.1, h.2.1⟩
